import Mathlib

/-!
Shallow embedding of `src/main.ts` (an HLS / m3u8 downloader).

Strings are modelled as `List Char` (the character sequence of a JS string);
byte arrays (`Uint8Array`) as `List Nat`.  JS string helpers (`split`,
`startsWith`, `includes`, `trim`, the `BANDWIDTH=(\d+)` regex match, `parseInt`)
are embedded as executable functions on `List Char`.

The async batch loop of `processMediaPlaylist` is embedded as a fuel-indexed
loop producing an explicit event trace (`Ev.fetch` when a segment request is
issued, `Ev.write` when bytes are written to the output file); `none` models
divergence (the fuel ran out although the loop had not finished, which for
positive concurrency never happens with fuel = number of segments).  The
nondeterministic completion order of the fetches inside one batch is modelled
by a `sched` parameter that may permute the batch's result list before the
source's `results.sort((a, b) => a.index - b.index)` step runs.
-/

namespace M3U8

instance {ε α : Type} [DecidableEq ε] [DecidableEq α] : DecidableEq (Except ε α) :=
  fun a b =>
    match a, b with
    | Except.ok x, Except.ok y =>
      if h : x = y then isTrue (by rw [h]) else isFalse fun he => h (Except.ok.inj he)
    | Except.error x, Except.error y =>
      if h : x = y then isTrue (by rw [h]) else isFalse fun he => h (Except.error.inj he)
    | Except.ok _, Except.error _ => isFalse fun he => Except.noConfusion he
    | Except.error _, Except.ok _ => isFalse fun he => Except.noConfusion he

/-- Characters of a Lean string literal, used to write concrete JS strings. -/
def str (s : String) : List Char := s.data

/-- JS `target.startsWith(pat)`: `strStarts pat target`. -/
def strStarts : List Char → List Char → Bool
  | [], _ => true
  | _ :: _, [] => false
  | p :: ps, c :: cs => p == c && strStarts ps cs

/-- JS `target.includes(pat)`: substring containment. -/
def hasSub (pat : List Char) : List Char → Bool
  | [] => strStarts pat []
  | c :: cs => strStarts pat (c :: cs) || hasSub pat cs

/-- JS `s.split(sep)` for a one-character separator. -/
def splitCh (sep : Char) : List Char → List (List Char)
  | [] => [[]]
  | c :: cs =>
    if c == sep then [] :: splitCh sep cs
    else
      match splitCh sep cs with
      | [] => [[c]]
      | h :: t => (c :: h) :: t

/-- JS `arr.join(sep)` for a one-character separator. -/
def joinCh (sep : Char) : List (List Char) → List Char
  | [] => []
  | [l] => l
  | l :: l' :: ls => l ++ sep :: joinCh sep (l' :: ls)

/-- The JS whitespace characters relevant to `String.prototype.trim`. -/
def isJsWs (c : Char) : Bool :=
  c == ' ' || c == '\t' || c == '\n' || c == '\r' || c == '\x0b' || c == '\x0c'

/-- JS `s.trim()`. -/
def jsTrim (l : List Char) : List Char :=
  ((l.dropWhile isJsWs).reverse.dropWhile isJsWs).reverse

/-- Decimal digit test, as in the regex class `\d`. -/
def isDigitCh (c : Char) : Bool := decide (48 ≤ c.toNat) && decide (c.toNat ≤ 57)

/-- The character of a decimal digit `d < 10`. -/
def digitChar (d : Nat) : Char := Char.ofNat (48 + d)

/-- Decimal digits of `n`, least significant first. -/
def digitsRev : Nat → List Char
  | 0 => []
  | n + 1 => digitChar ((n + 1) % 10) :: digitsRev ((n + 1) / 10)
decreasing_by exact Nat.div_lt_self (Nat.succ_pos n) (by decide)

/-- Decimal rendering of `n`, as JS would print a nonnegative integer. -/
def natDigits (n : Nat) : List Char := if n = 0 then ['0'] else (digitsRev n).reverse

/-- JS `parseInt` on a nonempty string of decimal digits (the value of the
regex capture group `(\d+)`). -/
def digitsToNat (l : List Char) : Nat :=
  l.foldl (fun a c => 10 * a + (c.toNat - 48)) 0

/-- The characters of the regex literal `BANDWIDTH=`. -/
def bwAttr : List Char := ['B', 'A', 'N', 'D', 'W', 'I', 'D', 'T', 'H', '=']

/-- JS `line.match(/BANDWIDTH=(\d+)/)` followed by `parseInt` on the capture:
the first position where `BANDWIDTH=` is immediately followed by at least one
digit yields the maximal digit run there; otherwise `none`. -/
def bandwidthMatch : List Char → Option Nat
  | [] => none
  | c :: cs =>
    if strStarts bwAttr (c :: cs) then
      let ds := (List.drop 10 (c :: cs)).takeWhile isDigitCh
      if ds.isEmpty then bandwidthMatch cs else some (digitsToNat ds)
    else bandwidthMatch cs

/-- The characters of the tag marker `#EXT-X-STREAM-INF`. -/
def streamInfMarker : List Char :=
  ['#', 'E', 'X', 'T', '-', 'X', '-', 'S', 'T', 'R', 'E', 'A', 'M', '-', 'I', 'N', 'F']

/-- The characters of `http://`. -/
def httpPre : List Char := ['h', 't', 't', 'p', ':', '/', '/']

/-- The characters of `https://`. -/
def httpsPre : List Char := ['h', 't', 't', 'p', 's', ':', '/', '/']

/-- JS `baseUrl.match(/^(https?:\/\/[^\/]+)/)`: the scheme plus the maximal
nonempty run of non-`/` characters after it. -/
def domainMatch (baseUrl : List Char) : Option (List Char) :=
  if strStarts httpPre baseUrl then
    let host := (baseUrl.drop 7).takeWhile fun c => !(c == '/')
    if host.isEmpty then none else some (httpPre ++ host)
  else if strStarts httpsPre baseUrl then
    let host := (baseUrl.drop 8).takeWhile fun c => !(c == '/')
    if host.isEmpty then none else some (httpsPre ++ host)
  else none

/-- `resolveUrl` from `src/main.ts` (lines 145-163). -/
def resolveUrl (url baseUrl : List Char) : List Char :=
  if strStarts httpPre url || strStarts httpsPre url then url
  else
    let baseDir := joinCh '/' ((splitCh '/' baseUrl).dropLast)
    if strStarts ['/'] url then
      match domainMatch baseUrl with
      | some d => d ++ url
      | none => url
    else baseDir ++ '/' :: url

/-- Errors observable from `extractHighestQualityStream`.  The code itself can
only raise `typeError` (reading `.startsWith` of the `undefined` value
`lines[i+1]` inside `resolveUrl`).  `noVariantFound` and `malformedPlaylist`
are modelled from the spec: they name the spec's `NoVariantFoundError` and
`MalformedPlaylistError`, which have no counterpart anywhere in the code; they
exist here only so that the spec's statements about them can be written down. -/
inductive ExtractErr where
  | typeError
  | noVariantFound
  | malformedPlaylist
deriving DecidableEq

/-- The scan loop of `extractHighestQualityStream` (lines 53-68): state is the
running maximum bandwidth and the currently selected (already resolved) URL.
`rest.head?` is `lines[i+1]`; when it is `undefined` the call
`resolveUrl(undefined, baseUrl)` throws a `TypeError`. -/
def extractGo (baseUrl : List Char) :
    List (List Char) → Nat → List Char → Except ExtractErr (Nat × List Char)
  | [], hb, sel => Except.ok (hb, sel)
  | line :: rest, hb, sel =>
    if hasSub streamInfMarker line then
      match bandwidthMatch line with
      | some b =>
        if hb < b then
          match rest.head? with
          | none => Except.error ExtractErr.typeError
          | some nxt => extractGo baseUrl rest b (resolveUrl nxt baseUrl)
        else extractGo baseUrl rest hb sel
      | none => extractGo baseUrl rest hb sel
    else extractGo baseUrl rest hb sel

/-- `extractHighestQualityStream` from `src/main.ts` (lines 48-72). -/
def extractHighestQualityStream (playlist baseUrl : List Char) :
    Except ExtractErr (List Char) :=
  Except.map Prod.snd (extractGo baseUrl (splitCh '\n' playlist) 0 [])

/-- Segment-URL extraction of `processMediaPlaylist` (lines 80-84): keep every
line that does not start with `#` and is nonempty after trimming, resolving
the raw, untrimmed line. -/
def extractSegments (playlist baseUrl : List Char) : List (List Char) :=
  (splitCh '\n' playlist).filterMap fun line =>
    if !strStarts ['#'] line && !(jsTrim line).isEmpty then
      some (resolveUrl line baseUrl)
    else none

/-- An HTTP response as the transport collaborator delivers it. -/
structure Response where
  status : Nat
  body : List Nat

/-- JS `response.ok`: status in `[200, 300)`. -/
def respOk (r : Response) : Bool := decide (200 ≤ r.status) && decide (r.status < 300)

/-- The error thrown by `downloadSegment` (lines 135-142): it carries the
failing URL and the HTTP status (the code throws
`new Error("Failed to fetch segment ${url}: ${status} ...")`; the spec names
this `SegmentFetchError`). -/
inductive DlErr where
  | segmentFetch (url : List Char) (status : Nat)
deriving DecidableEq

/-- `downloadSegment` from `src/main.ts` (lines 135-142). -/
def downloadSegment (tr : List Char → Response) (url : List Char) :
    Except DlErr (List Nat) :=
  if respOk (tr url) then Except.ok (tr url).body
  else Except.error (DlErr.segmentFetch url (tr url).status)

/-- One batch of fetches (`batch.map(...)` + `Promise.all`, lines 108-117):
results carry the global index `i + index`; a rejection aborts the batch (the
embedding resolves `Promise.all`'s choice of rejection to the lowest index). -/
def fetchBatch (tr : List Char → Response) :
    Nat → List (List Char) → Except DlErr (List (Nat × List Nat))
  | _, [] => Except.ok []
  | i0, u :: us =>
    match downloadSegment tr u with
    | Except.error e => Except.error e
    | Except.ok d =>
      match fetchBatch tr (i0 + 1) us with
      | Except.error e => Except.error e
      | Except.ok rest => Except.ok ((i0, d) :: rest)

/-- Observable events of one run: a segment fetch being issued, and bytes
being written to the output file. -/
inductive Ev where
  | fetch (index : Nat) (url : List Char)
  | write (index : Nat) (data : List Nat)
deriving DecidableEq

/-- The fetches a batch issues, in `map` order, tagged with global indices. -/
def issueEvs : Nat → List (List Char) → List Ev
  | _, [] => []
  | i0, u :: us => Ev.fetch i0 u :: issueEvs (i0 + 1) us

/-- Insertion step of the sort `results.sort((a, b) => a.index - b.index)`. -/
def insertByIdx (p : Nat × List Nat) :
    List (Nat × List Nat) → List (Nat × List Nat)
  | [] => [p]
  | q :: qs => if p.1 ≤ q.1 then p :: q :: qs else q :: insertByIdx p qs

/-- `results.sort((a, b) => a.index - b.index)` (line 120), as an insertion
sort on the index key (indices within a batch are distinct, so any correct
sort produces the same list). -/
def sortByIndex (l : List (Nat × List Nat)) : List (Nat × List Nat) :=
  l.foldr insertByIdx []

/-- The batch loop of `processMediaPlaylist` (lines 106-125), fuel-indexed:
one unit of fuel per executed loop iteration (`i ← i + concurrency`), `none`
when the fuel is exhausted before the loop finishes (which models the loop not
terminating, since the real loop has no bound). -/
def dlLoop (tr : List Char → Response)
    (sched : List (Nat × List Nat) → List (Nat × List Nat)) (conc : Nat) :
    Nat → Nat → List (List Char) → Option (List Ev × Except DlErr Unit)
  | 0, _, segs => if segs.isEmpty then some ([], Except.ok ()) else none
  | fuel + 1, i0, segs =>
    if segs.isEmpty then some ([], Except.ok ())
    else
      let batch := segs.take conc
      let issued := issueEvs i0 batch
      match fetchBatch tr i0 batch with
      | Except.error e => some (issued, Except.error e)
      | Except.ok results =>
        let ordered := sortByIndex (sched results)
        let writes := ordered.map fun p => Ev.write p.1 p.2
        match dlLoop tr sched conc fuel (i0 + conc) (segs.drop conc) with
        | none => none
        | some (evs, out) => some (issued ++ writes ++ evs, out)

/-- `processMediaPlaylist` from `src/main.ts` (lines 75-132): extract the
segment URLs, run the batch loop (fuel = number of segments, enough for any
positive concurrency), and report the trace, the outcome, and whether the file
was closed (`true` — the `finally` block runs on every non-diverging path). -/
def processMediaPlaylist (tr : List Char → Response)
    (sched : List (Nat × List Nat) → List (Nat × List Nat))
    (playlist baseUrl : List Char) (conc : Nat) :
    Option (List Ev × Except DlErr Unit × Bool) :=
  let segments := extractSegments playlist baseUrl
  match dlLoop tr sched conc segments.length 0 segments with
  | none => none
  | some (evs, out) => some (evs, out, true)

/-- The default value of the `concurrency` parameter of `downloadM3U8`
(line 7 of `src/main.ts`). -/
def downloadM3U8DefaultConcurrency : Nat := 5

/-- JS `parseInt` restricted to the nonnegative inputs the CLI deals with:
skip leading whitespace, read a maximal digit run, `NaN` (here `none`) when
there is none. -/
def jsParseIntNat (s : List Char) : Option Nat :=
  let ds := (s.dropWhile isJsWs).takeWhile isDigitCh
  if ds.isEmpty then none else some (digitsToNat ds)

/-- The CLI's concurrency computation (line 176 of `src/main.ts`):
`args[2] ? parseInt(args[2]) : 10` — `none` models an absent `args[2]`, and
the empty string is falsy, so both fall back to 10. -/
def cliConcurrency (arg : Option (List Char)) : Option Nat :=
  match arg with
  | none => some 10
  | some a => if a.isEmpty then some 10 else jsParseIntNat a

/-- The consecutive batches `segments.slice(i, i + concurrency)` the loop
walks through, fuel-indexed like the loop itself. -/
def batchesAux (conc : Nat) : Nat → List (List Char) → List (List (List Char))
  | 0, _ => []
  | _, [] => []
  | fuel + 1, u :: us =>
    ((u :: us).take conc) :: batchesAux conc fuel ((u :: us).drop conc)

/-- The batch partition of a segment list (meaningful for `1 ≤ conc`). -/
def batchesOf (conc : Nat) (segs : List (List Char)) : List (List (List Char)) :=
  batchesAux conc segs.length segs

/-- The write events of a trace, in order. -/
def writesOf : List Ev → List (Nat × List Nat)
  | [] => []
  | Ev.write i d :: evs => (i, d) :: writesOf evs
  | Ev.fetch _ _ :: evs => writesOf evs

/-- A list tagged with consecutive indices starting at `i`. -/
def idxFrom (i : Nat) : List α → List (Nat × α)
  | [] => []
  | a :: as => (i, a) :: idxFrom (i + 1) as

/-- The trace of a fully successful run over the given batches: each batch
issues all its fetches, then writes all its results in index order. -/
def batchTrace (tr : List Char → Response) : Nat → List (List (List Char)) → List Ev
  | _, [] => []
  | i0, b :: bs =>
    issueEvs i0 b ++
      (idxFrom i0 (b.map fun u => (tr u).body)).map (fun p => Ev.write p.1 p.2) ++
      batchTrace tr (i0 + b.length) bs

/-- A master playlist's tag line `#EXT-X-STREAM-INF:BANDWIDTH=<b>`. -/
def streamTagHead : List Char :=
  streamInfMarker ++ [':', 'B', 'A', 'N', 'D', 'W', 'I', 'D', 'T', 'H', '=']

/-- The rendered tag line for bandwidth `b`. -/
def streamInfTagLine (b : Nat) : List Char := streamTagHead ++ natDigits b

/-- The lines of a master playlist holding the given `(bandwidth, uri)`
variants, each as a tag line followed by its URI line. -/
def renderVariants : List (Nat × List Char) → List (List Char)
  | [] => []
  | (b, u) :: vs => streamInfTagLine b :: u :: renderVariants vs

/-- The scan of `extractHighestQualityStream` restricted to a well-formed
variant list: the closed form its loop computes. -/
def scanVariants (baseUrl : List Char) :
    List (Nat × List Char) → Nat → List Char → Nat × List Char
  | [], hb, sel => (hb, sel)
  | (b, u) :: vs, hb, sel =>
    if hb < b then scanVariants baseUrl vs b (resolveUrl u baseUrl)
    else scanVariants baseUrl vs hb sel

/-! ### Helper lemmas: list and string infrastructure -/

theorem splitCh_ne_nil (sep : Char) (l : List Char) : splitCh sep l ≠ [] := by
  match l with
  | [] => simp [splitCh]
  | c :: cs =>
    rw [splitCh]
    by_cases h : (c == sep) = true
    · simp [h]
    · simp only [h]
      match hs : splitCh sep cs with
      | [] => simp
      | h' :: t => simp

theorem splitCh_append_cons (sep : Char) (a b : List Char) :
    splitCh sep (a ++ sep :: b) = splitCh sep a ++ splitCh sep b := by
  induction a with
  | nil => simp [splitCh]
  | cons c cs ih =>
    rw [List.cons_append, splitCh, splitCh]
    by_cases h : (c == sep) = true
    · simp [h, ih]
    · simp only [h, Bool.false_eq_true, if_false, ih]
      match hs : splitCh sep cs with
      | [] => exact absurd hs (splitCh_ne_nil sep cs)
      | h' :: t => simp

theorem splitCh_no_sep (sep : Char) (l : List Char) (h : ∀ c ∈ l, c ≠ sep) :
    splitCh sep l = [l] := by
  induction l with
  | nil => rfl
  | cons c cs ih =>
    rw [splitCh]
    have hc : (c == sep) = false := by
      simp only [beq_eq_false_iff_ne]
      exact h c (List.mem_cons_self c cs)
    simp only [hc, Bool.false_eq_true, if_false]
    rw [ih fun x hx => h x (List.mem_cons_of_mem c hx)]

theorem joinCh_splitCh (sep : Char) (l : List Char) :
    joinCh sep (splitCh sep l) = l := by
  induction l with
  | nil => rfl
  | cons c cs ih =>
    rw [splitCh]
    by_cases h : (c == sep) = true
    · have hc : c = sep := by simpa using h
      simp only [h, if_true]
      match hs : splitCh sep cs with
      | [] => exact absurd hs (splitCh_ne_nil sep cs)
      | h' :: t =>
        rw [joinCh]
        rw [hs] at ih
        rw [ih, hc]
        rfl
    · simp only [h, Bool.false_eq_true, if_false]
      match hs : splitCh sep cs with
      | [] => exact absurd hs (splitCh_ne_nil sep cs)
      | [h'] =>
        rw [joinCh]
        rw [hs, joinCh] at ih
        rw [ih]
      | h' :: h'' :: t =>
        rw [joinCh]
        rw [hs, joinCh] at ih
        rw [List.cons_append, ih]

theorem splitCh_joinCh (sep : Char) (ls : List (List Char)) (hne : ls ≠ [])
    (h : ∀ l ∈ ls, ∀ c ∈ l, c ≠ sep) : splitCh sep (joinCh sep ls) = ls := by
  induction ls with
  | nil => exact absurd rfl hne
  | cons l ls ih =>
    match ls with
    | [] =>
      rw [joinCh]
      exact splitCh_no_sep sep l (h l (List.mem_cons_self l []))
    | l' :: ls' =>
      rw [joinCh, splitCh_append_cons]
      rw [splitCh_no_sep sep l (h l (List.mem_cons_self l (l' :: ls')))]
      rw [ih (by simp) fun x hx => h x (List.mem_cons_of_mem l hx)]
      rfl

theorem dropLast_append_one {α : Type} (a : List α) (x : α) :
    (a ++ [x]).dropLast = a := by
  induction a with
  | nil => rfl
  | cons c cs ih =>
    rw [List.cons_append]
    match h : cs ++ [x] with
    | [] => exact absurd h (by simp)
    | y :: ys =>
      rw [List.dropLast_cons₂, ← h, ih]

theorem takeWhile_all {α : Type} (p : α → Bool) (l : List α)
    (h : ∀ c ∈ l, p c = true) : l.takeWhile p = l := by
  induction l with
  | nil => rfl
  | cons c cs ih =>
    rw [List.takeWhile_cons, h c (List.mem_cons_self c cs)]
    rw [ih fun x hx => h x (List.mem_cons_of_mem c hx)]
    simp

theorem takeWhile_append_stop {α : Type} (p : α → Bool) (a : List α) (x : α)
    (b : List α) (ha : ∀ c ∈ a, p c = true) (hx : p x = false) :
    (a ++ x :: b).takeWhile p = a := by
  induction a with
  | nil => simp [List.takeWhile_cons, hx]
  | cons c cs ih =>
    rw [List.cons_append, List.takeWhile_cons, ha c (List.mem_cons_self c cs)]
    simp only [if_true]
    rw [ih fun y hy => ha y (List.mem_cons_of_mem c hy)]

theorem strStarts_append_self (p t : List Char) : strStarts p (p ++ t) = true := by
  induction p with
  | nil => rfl
  | cons c cs ih => simp [strStarts, ih]

theorem hasSub_of_strStarts (pat l : List Char) (h : strStarts pat l = true) :
    hasSub pat l = true := by
  match l with
  | [] => exact h
  | c :: cs => simp [hasSub, h]

/-! ### Helper lemmas: decimal digits -/

theorem digitChar_toNat (d : Nat) (h : d < 10) : (digitChar d).toNat = 48 + d := by
  unfold digitChar Char.ofNat
  rw [dif_pos (Or.inl (by omega : 48 + d < 0xd800))]
  rfl

theorem digitChar_isDigit (d : Nat) (h : d < 10) : isDigitCh (digitChar d) = true := by
  have ht := digitChar_toNat d h
  simp only [isDigitCh, ht, Bool.and_eq_true, decide_eq_true_eq]
  omega

theorem digitsRev_all_digit (n : Nat) : ∀ c ∈ digitsRev n, isDigitCh c = true := by
  induction n using Nat.strong_induction_on with
  | _ n ih =>
    match n with
    | 0 => intro c hc; exact absurd hc (by simp [digitsRev])
    | m + 1 =>
      rw [digitsRev]
      intro c hc
      rcases List.mem_cons.mp hc with h | h
      · rw [h]; exact digitChar_isDigit _ (Nat.mod_lt _ (by decide))
      · exact ih ((m + 1) / 10) (Nat.div_lt_self (Nat.succ_pos m) (by decide)) c h

theorem natDigits_all_digit (n : Nat) : ∀ c ∈ natDigits n, isDigitCh c = true := by
  unfold natDigits
  by_cases h : n = 0
  · simp only [h, if_true]
    intro c hc
    rw [List.mem_singleton.mp hc]
    exact digitChar_isDigit 0 (by decide)
  · simp only [h, if_false]
    intro c hc
    exact digitsRev_all_digit n c (List.mem_reverse.mp hc)

theorem natDigits_ne_nil (n : Nat) : natDigits n ≠ [] := by
  unfold natDigits
  by_cases h : n = 0
  · simp [h]
  · simp only [h, if_false]
    obtain ⟨k, rfl⟩ := Nat.exists_eq_succ_of_ne_zero h
    rw [digitsRev]
    simp

theorem digitsRev_foldr (n : Nat) :
    (digitsRev n).foldr (fun c a => 10 * a + (c.toNat - 48)) 0 = n := by
  induction n using Nat.strong_induction_on with
  | _ n ih =>
    match n with
    | 0 => simp [digitsRev]
    | m + 1 =>
      rw [digitsRev, List.foldr_cons,
        ih ((m + 1) / 10) (Nat.div_lt_self (Nat.succ_pos m) (by decide)),
        digitChar_toNat _ (Nat.mod_lt _ (by decide))]
      omega

theorem digitsToNat_natDigits (n : Nat) : digitsToNat (natDigits n) = n := by
  unfold natDigits
  by_cases h : n = 0
  · simp only [h, if_true]
    decide
  · simp only [h, if_false]
    unfold digitsToNat
    rw [List.foldl_reverse]
    exact digitsRev_foldr n

/-! ### Helper lemmas: the BANDWIDTH regex and rendered tag lines -/

theorem strStarts_bwAttr_false (c : Char) (cs : List Char) (h : c ≠ 'B') :
    strStarts bwAttr (c :: cs) = false := by
  rw [bwAttr, strStarts]
  have : ('B' == c) = false := beq_eq_false_iff_ne.mpr (Ne.symm h)
  rw [this, Bool.false_and]

theorem bandwidthMatch_skip (c : Char) (cs : List Char) (h : c ≠ 'B') :
    bandwidthMatch (c :: cs) = bandwidthMatch cs := by
  rw [bandwidthMatch, strStarts_bwAttr_false c cs h]
  simp

theorem bandwidthMatch_skip_noB (a rest : List Char) (h : ∀ c ∈ a, c ≠ 'B') :
    bandwidthMatch (a ++ rest) = bandwidthMatch rest := by
  induction a with
  | nil => rfl
  | cons c cs ih =>
    rw [List.cons_append, bandwidthMatch_skip c _ (h c (List.mem_cons_self c cs))]
    exact ih fun x hx => h x (List.mem_cons_of_mem c hx)

theorem bandwidthMatch_bwAttr (ds : List Char) (hne : ds ≠ [])
    (hdig : ∀ c ∈ ds, isDigitCh c = true) :
    bandwidthMatch (bwAttr ++ ds) = some (digitsToNat ds) := by
  have hcons : bwAttr ++ ds =
      'B' :: 'A' :: 'N' :: 'D' :: 'W' :: 'I' :: 'D' :: 'T' :: 'H' :: '=' :: ds := rfl
  rw [hcons, bandwidthMatch]
  have hstart : strStarts bwAttr
      ('B' :: 'A' :: 'N' :: 'D' :: 'W' :: 'I' :: 'D' :: 'T' :: 'H' :: '=' :: ds) = true :=
    strStarts_append_self bwAttr ds
  rw [hstart]
  have hdrop : List.drop 10
      ('B' :: 'A' :: 'N' :: 'D' :: 'W' :: 'I' :: 'D' :: 'T' :: 'H' :: '=' :: ds) = ds := rfl
  simp only [if_true, hdrop]
  rw [takeWhile_all isDigitCh ds hdig]
  match ds, hne with
  | d :: ds', _ => simp [List.isEmpty]

theorem bandwidthMatch_tagLine (b : Nat) :
    bandwidthMatch (streamInfTagLine b) = some b := by
  have h1 : streamInfTagLine b =
      (['#', 'E', 'X', 'T', '-', 'X', '-', 'S', 'T', 'R', 'E', 'A', 'M', '-', 'I', 'N',
        'F', ':'] : List Char) ++ (bwAttr ++ natDigits b) := by
    rw [streamInfTagLine]
    have : streamTagHead =
        (['#', 'E', 'X', 'T', '-', 'X', '-', 'S', 'T', 'R', 'E', 'A', 'M', '-', 'I', 'N',
          'F', ':'] : List Char) ++ bwAttr := by decide
    rw [this, List.append_assoc]
  rw [h1, bandwidthMatch_skip_noB _ _ (by decide),
    bandwidthMatch_bwAttr _ (natDigits_ne_nil b) (natDigits_all_digit b),
    digitsToNat_natDigits]

theorem hasSub_marker_tagLine (b : Nat) :
    hasSub streamInfMarker (streamInfTagLine b) = true := by
  apply hasSub_of_strStarts
  have h1 : streamInfTagLine b = streamInfMarker ++
      (([':', 'B', 'A', 'N', 'D', 'W', 'I', 'D', 'T', 'H', '='] : List Char) ++
        natDigits b) := by
    rw [streamInfTagLine, streamTagHead, List.append_assoc]
  rw [h1]
  exact strStarts_append_self _ _

theorem digit_ne_nl (c : Char) (h : isDigitCh c = true) : c ≠ '\n' := by
  intro he
  rw [he] at h
  exact absurd h (by decide)

theorem tagLine_no_nl (b : Nat) : ∀ c ∈ streamInfTagLine b, c ≠ '\n' := by
  intro c hc
  rw [streamInfTagLine] at hc
  rcases List.mem_append.mp hc with h | h
  · intro he
    rw [he] at h
    exact absurd h (by decide)
  · exact digit_ne_nl c (natDigits_all_digit b c h)

/-! ### Helper lemmas: the variant-selection scan -/

theorem extractGo_skip (baseUrl u : List Char) (rest : List (List Char))
    (hu : hasSub streamInfMarker u = false) :
    ∀ hb sel, extractGo baseUrl (u :: rest) hb sel = extractGo baseUrl rest hb sel := by
  intro hb sel
  rw [extractGo, hu]
  simp

theorem extractGo_render (baseUrl : List Char) (vs : List (Nat × List Char)) :
    ∀ hb sel, (∀ p ∈ vs, hasSub streamInfMarker p.2 = false) →
    extractGo baseUrl (renderVariants vs) hb sel =
      Except.ok (scanVariants baseUrl vs hb sel) := by
  induction vs with
  | nil => intro hb sel _; rfl
  | cons v vs ih =>
    intro hb sel h
    obtain ⟨b, u⟩ := v
    have htail : ∀ p ∈ vs, hasSub streamInfMarker p.2 = false :=
      fun p hp => h p (List.mem_cons_of_mem _ hp)
    have hu : hasSub streamInfMarker u = false := h (b, u) (List.mem_cons_self _ _)
    rw [renderVariants, extractGo, hasSub_marker_tagLine, bandwidthMatch_tagLine]
    simp only [if_true, List.head?]
    rw [scanVariants]
    by_cases hlt : hb < b
    · rw [if_pos hlt, if_pos hlt, extractGo_skip baseUrl u _ hu]
      exact ih b (resolveUrl u baseUrl) htail
    · rw [if_neg hlt, if_neg hlt, extractGo_skip baseUrl u _ hu]
      exact ih hb sel htail

theorem scanVariants_stable (baseUrl : List Char) (vs : List (Nat × List Char)) :
    ∀ hb sel, (∀ p ∈ vs, p.1 ≤ hb) → scanVariants baseUrl vs hb sel = (hb, sel) := by
  induction vs with
  | nil => intro hb sel _; rfl
  | cons v vs ih =>
    intro hb sel h
    obtain ⟨b, u⟩ := v
    rw [scanVariants, if_neg (Nat.not_lt.mpr (h (b, u) (List.mem_cons_self _ _)))]
    exact ih hb sel fun p hp => h p (List.mem_cons_of_mem _ hp)

theorem scanVariants_first (baseUrl : List Char) (vs : List (Nat × List Char)) :
    ∀ k hb sel b u, vs.get? k = some (b, u) → hb < b →
    (∀ p ∈ vs, p.1 ≤ b) → (∀ p ∈ vs.take k, p.1 < b) →
    scanVariants baseUrl vs hb sel = (b, resolveUrl u baseUrl) := by
  induction vs with
  | nil =>
    intro k hb sel b u hget _ _ _
    exact absurd hget (by simp)
  | cons v vs ih =>
    intro k hb sel b u hget hlt hmax hfirst
    obtain ⟨b0, u0⟩ := v
    match k with
    | 0 =>
      rw [List.get?_cons_zero] at hget
      injection hget with h1
      injection h1 with hb1 hu1
      subst hb1
      subst hu1
      rw [scanVariants, if_pos hlt]
      exact scanVariants_stable baseUrl vs _ _
        fun p hp => hmax p (List.mem_cons_of_mem _ hp)
    | k + 1 =>
      rw [List.get?_cons_succ] at hget
      have hb0b : b0 < b := by
        apply hfirst (b0, u0)
        rw [List.take_succ_cons]
        exact List.mem_cons_self _ _
      have hmax' : ∀ p ∈ vs, p.1 ≤ b := fun p hp => hmax p (List.mem_cons_of_mem _ hp)
      have hfirst' : ∀ p ∈ vs.take k, p.1 < b := by
        intro p hp
        apply hfirst p
        rw [List.take_succ_cons]
        exact List.mem_cons_of_mem _ hp
      rw [scanVariants]
      by_cases h0 : hb < b0
      · rw [if_pos h0]
        exact ih k b0 (resolveUrl u0 baseUrl) b u hget hb0b hmax' hfirst'
      · rw [if_neg h0]
        exact ih k hb sel b u hget hlt hmax' hfirst'

theorem extractGo_no_select (baseUrl : List Char) (lines : List (List Char)) :
    ∀ sel, (∀ l ∈ lines, hasSub streamInfMarker l = true →
        bandwidthMatch l = none ∨ bandwidthMatch l = some 0) →
    extractGo baseUrl lines 0 sel = Except.ok (0, sel) := by
  induction lines with
  | nil => intro sel _; rfl
  | cons line rest ih =>
    intro sel h
    have htail : ∀ l ∈ rest, hasSub streamInfMarker l = true →
        bandwidthMatch l = none ∨ bandwidthMatch l = some 0 :=
      fun l hl => h l (List.mem_cons_of_mem _ hl)
    rw [extractGo]
    by_cases ht : hasSub streamInfMarker line = true
    · rcases h line (List.mem_cons_self _ _) ht with hbw | hbw
      · rw [ht, hbw]
        simp only [if_true]
        exact ih sel htail
      · rw [ht, hbw]
        simp only [if_true, Nat.lt_irrefl, if_false]
        exact ih sel htail
    · rw [Bool.not_eq_true] at ht
      rw [ht]
      simp only [Bool.false_eq_true, if_false]
      exact ih sel htail

theorem extractGo_tag_last (baseUrl lst : List Char) (b : Nat)
    (htag : hasSub streamInfMarker lst = true) (hbw : bandwidthMatch lst = some b) :
    ∀ pre hb sel, (∀ l ∈ pre, hasSub streamInfMarker l = false) → hb < b →
    extractGo baseUrl (pre ++ [lst]) hb sel = Except.error ExtractErr.typeError := by
  intro pre
  induction pre with
  | nil =>
    intro hb sel _ hlt
    rw [List.nil_append, extractGo, htag, hbw]
    simp only [if_true, List.head?]
    rw [if_pos hlt]
  | cons l pre ih =>
    intro hb sel hpre hlt
    rw [List.cons_append,
      extractGo_skip baseUrl l _ (hpre l (List.mem_cons_self _ _))]
    exact ih hb sel (fun x hx => hpre x (List.mem_cons_of_mem _ hx)) hlt

/-! ### Helper lemmas: URL resolution -/

theorem drop_append_len {α : Type} (a b : List α) : List.drop a.length (a ++ b) = b := by
  induction a with
  | nil => rfl
  | cons c cs ih => simp [ih]

theorem resolveUrl_absolute (url base : List Char)
    (h : strStarts httpPre url = true ∨ strStarts httpsPre url = true) :
    resolveUrl url base = url := by
  rcases h with h | h
  · simp [resolveUrl, h]
  · simp [resolveUrl, h]

theorem domainMatch_scheme (host rest scheme : List Char)
    (hs : scheme = httpPre ∨ scheme = httpsPre)
    (hne : host ≠ []) (hh : ∀ c ∈ host, c ≠ '/') :
    domainMatch (scheme ++ host ++ '/' :: rest) = some (scheme ++ host) := by
  have htake : (host ++ '/' :: rest).takeWhile (fun c => !(c == '/')) = host := by
    apply takeWhile_append_stop
    · intro c hc
      simp only [Bool.not_eq_true']
      exact beq_eq_false_iff_ne.mpr (hh c hc)
    · decide
  have hemp : host.isEmpty = false := by
    match host, hne with
    | c :: cs, _ => rfl
  rcases hs with rfl | rfl
  · rw [domainMatch]
    have h1 : strStarts httpPre (httpPre ++ host ++ '/' :: rest) = true := by
      rw [List.append_assoc]
      exact strStarts_append_self _ _
    rw [h1]
    have hdrop : List.drop 7 (httpPre ++ host ++ '/' :: rest) = host ++ '/' :: rest := by
      rw [List.append_assoc]
      exact drop_append_len httpPre _
    simp only [if_true, hdrop, htake, hemp]
    simp
  · rw [domainMatch]
    have h0 : strStarts httpPre (httpsPre ++ host ++ '/' :: rest) = false := rfl
    have h1 : strStarts httpsPre (httpsPre ++ host ++ '/' :: rest) = true := by
      rw [List.append_assoc]
      exact strStarts_append_self _ _
    rw [h0, h1]
    have hdrop : List.drop 8 (httpsPre ++ host ++ '/' :: rest) = host ++ '/' :: rest := by
      rw [List.append_assoc]
      exact drop_append_len httpsPre _
    simp only [Bool.false_eq_true, if_false, if_true, hdrop, htake, hemp]

theorem resolveUrl_root (r host rest scheme : List Char)
    (hs : scheme = httpPre ∨ scheme = httpsPre)
    (hne : host ≠ []) (hh : ∀ c ∈ host, c ≠ '/') :
    resolveUrl ('/' :: r) (scheme ++ host ++ '/' :: rest) =
      scheme ++ host ++ '/' :: r := by
  have h0 : (strStarts httpPre ('/' :: r) || strStarts httpsPre ('/' :: r)) = false := rfl
  have h1 : strStarts ['/'] ('/' :: r) = true := rfl
  rw [resolveUrl, h0]
  simp only [Bool.false_eq_true, if_false, h1, if_true]
  rw [domainMatch_scheme host rest scheme hs hne hh]

theorem baseDir_split (d lastPart : List Char) (h : ∀ c ∈ lastPart, c ≠ '/') :
    joinCh '/' ((splitCh '/' (d ++ '/' :: lastPart)).dropLast) = d := by
  rw [splitCh_append_cons, splitCh_no_sep '/' lastPart h, dropLast_append_one,
    joinCh_splitCh]

theorem resolveUrl_relative (url d lastPart : List Char)
    (h1 : strStarts httpPre url = false) (h2 : strStarts httpsPre url = false)
    (h3 : strStarts ['/'] url = false) (hl : ∀ c ∈ lastPart, c ≠ '/') :
    resolveUrl url (d ++ '/' :: lastPart) = d ++ '/' :: url := by
  rw [resolveUrl, h1, h2]
  simp only [Bool.or_self, Bool.false_eq_true, if_false, h3,
    baseDir_split d lastPart hl]

theorem resolveUrl_suffix (url base : List Char) :
    ∃ pre, resolveUrl url base = pre ++ url := by
  rw [resolveUrl]
  by_cases h : (strStarts httpPre url || strStarts httpsPre url) = true
  · rw [if_pos h]
    exact ⟨[], rfl⟩
  · rw [if_neg h]
    simp only
    by_cases h2 : strStarts ['/'] url = true
    · rw [if_pos h2]
      match hd : domainMatch base with
      | some d => exact ⟨d, rfl⟩
      | none => exact ⟨[], rfl⟩
    · rw [if_neg h2]
      exact ⟨joinCh '/' ((splitCh '/' base).dropLast) ++ ['/'], by simp⟩

/-! ### Helper lemmas: the per-batch sort by index -/

theorem insertByIdx_perm (p : Nat × List Nat) (l : List (Nat × List Nat)) :
    List.Perm (insertByIdx p l) (p :: l) := by
  induction l with
  | nil => exact List.Perm.refl _
  | cons q qs ih =>
    rw [insertByIdx]
    by_cases h : p.1 ≤ q.1
    · rw [if_pos h]
    · rw [if_neg h]
      exact (List.Perm.cons q ih).trans (List.Perm.swap p q qs)

theorem sortByIndex_perm (l : List (Nat × List Nat)) :
    List.Perm (sortByIndex l) l := by
  induction l with
  | nil => exact List.Perm.refl _
  | cons p l ih =>
    rw [sortByIndex, List.foldr_cons]
    exact (insertByIdx_perm p _).trans (List.Perm.cons p ih)

theorem insertByIdx_sorted (p : Nat × List Nat) (l : List (Nat × List Nat))
    (h : List.Pairwise (fun a b => a.1 ≤ b.1) l) :
    List.Pairwise (fun a b => a.1 ≤ b.1) (insertByIdx p l) := by
  induction l with
  | nil => simp [insertByIdx]
  | cons q qs ih =>
    rw [insertByIdx]
    obtain ⟨hq, hqs⟩ := List.pairwise_cons.mp h
    by_cases hpq : p.1 ≤ q.1
    · rw [if_pos hpq]
      apply List.pairwise_cons.mpr
      refine ⟨?_, h⟩
      intro b hb
      rcases List.mem_cons.mp hb with rfl | hb
      · exact hpq
      · exact hpq.trans (hq b hb)
    · rw [if_neg hpq]
      apply List.pairwise_cons.mpr
      refine ⟨?_, ih hqs⟩
      intro b hb
      have hb' : b ∈ p :: qs := (insertByIdx_perm p qs).mem_iff.mp hb
      rcases List.mem_cons.mp hb' with rfl | hb'
      · exact Nat.le_of_lt (Nat.lt_of_not_le hpq)
      · exact hq b hb'

theorem sortByIndex_sorted (l : List (Nat × List Nat)) :
    List.Pairwise (fun a b => a.1 ≤ b.1) (sortByIndex l) := by
  induction l with
  | nil => simp [sortByIndex]
  | cons p l ih =>
    rw [sortByIndex, List.foldr_cons]
    exact insertByIdx_sorted p _ ih

theorem sorted_perm_unique : ∀ (l m : List (Nat × List Nat)),
    List.Perm m l → List.Pairwise (fun a b => a.1 < b.1) l →
    List.Pairwise (fun a b => a.1 ≤ b.1) m → m = l := by
  intro l
  induction l with
  | nil =>
    intro m hp _ _
    exact hp.eq_nil
  | cons a l ih =>
    intro m hp hl hm
    match m with
    | [] =>
      have := hp.length_eq
      simp at this
    | b :: m' =>
      have hmem_b : b ∈ a :: l := hp.mem_iff.mp (List.mem_cons_self b m')
      have hmem_a : a ∈ b :: m' := hp.mem_iff.mpr (List.mem_cons_self a l)
      have hba : b = a := by
        rcases List.mem_cons.mp hmem_b with h | h
        · exact h
        · have h1 : a.1 < b.1 := (List.pairwise_cons.mp hl).1 b h
          rcases List.mem_cons.mp hmem_a with h' | h'
          · exact h'.symm
          · have h2 : b.1 ≤ a.1 := (List.pairwise_cons.mp hm).1 a h'
            omega
      subst hba
      have hp' : List.Perm m' l := List.Perm.cons_inv hp
      have hm' : List.Pairwise (fun a b => a.1 ≤ b.1) m' := (List.pairwise_cons.mp hm).2
      have hl' : List.Pairwise (fun a b => a.1 < b.1) l := (List.pairwise_cons.mp hl).2
      rw [ih m' hp' hl' hm']

theorem sortByIndex_eq_of_perm_sorted (m l : List (Nat × List Nat))
    (hp : List.Perm m l) (hl : List.Pairwise (fun a b => a.1 < b.1) l) :
    sortByIndex m = l :=
  sorted_perm_unique l (sortByIndex m) ((sortByIndex_perm m).trans hp)
    hl (sortByIndex_sorted m)

/-! ### Helper lemmas: indexed lists, traces, batch fetching -/

theorem idxFrom_append {α : Type} (a b : List α) :
    ∀ i, idxFrom i (a ++ b) = idxFrom i a ++ idxFrom (i + a.length) b := by
  induction a with
  | nil => intro i; simp [idxFrom]
  | cons x xs ih =>
    intro i
    rw [List.cons_append, idxFrom, idxFrom, ih (i + 1), List.cons_append]
    have h1 : i + 1 + xs.length = i + (x :: xs).length := by
      rw [List.length_cons]
      omega
    rw [h1]

theorem idxFrom_key_ge {α : Type} (p : Nat × α) :
    ∀ (l : List α) (i : Nat), p ∈ idxFrom i l → i ≤ p.1 := by
  intro l
  induction l with
  | nil => intro i h; exact absurd h (by simp [idxFrom])
  | cons x xs ih =>
    intro i h
    rw [idxFrom] at h
    rcases List.mem_cons.mp h with rfl | h
    · exact Nat.le_refl i
    · exact Nat.le_of_succ_le (ih (i + 1) h)

theorem idxFrom_mem_lt {α : Type} (p : Nat × α) :
    ∀ (l : List α) (i : Nat), p ∈ idxFrom i l → p.1 < i + l.length := by
  intro l
  induction l with
  | nil => intro i h; exact absurd h (by simp [idxFrom])
  | cons x xs ih =>
    intro i h
    rw [idxFrom] at h
    rw [List.length_cons]
    rcases List.mem_cons.mp h with rfl | h
    · omega
    · have := ih (i + 1) h
      omega

theorem idxFrom_pairwise {α : Type} (l : List α) :
    ∀ i, List.Pairwise (fun a b => a.1 < b.1) (idxFrom i l) := by
  induction l with
  | nil => intro i; simp [idxFrom]
  | cons x xs ih =>
    intro i
    rw [idxFrom]
    apply List.pairwise_cons.mpr
    refine ⟨?_, ih (i + 1)⟩
    intro q hq
    exact Nat.lt_of_lt_of_le (Nat.lt_succ_self i) (idxFrom_key_ge q xs (i + 1) hq)

theorem idxFrom_length {α : Type} (l : List α) :
    ∀ i, (idxFrom i l).length = l.length := by
  induction l with
  | nil => intro i; rfl
  | cons x xs ih => intro i; simp [idxFrom, ih]

theorem idxFrom_map_snd {α : Type} (l : List α) :
    ∀ i, (idxFrom i l).map Prod.snd = l := by
  induction l with
  | nil => intro i; rfl
  | cons x xs ih => intro i; simp [idxFrom, ih]

theorem idxFrom_map_fst {α : Type} (l : List α) :
    ∀ i, (idxFrom i l).map Prod.fst = List.range' i l.length := by
  induction l with
  | nil => intro i; rfl
  | cons x xs ih => intro i; simp [idxFrom, ih, List.range']

theorem writesOf_append (a b : List Ev) :
    writesOf (a ++ b) = writesOf a ++ writesOf b := by
  induction a with
  | nil => rfl
  | cons e es ih => cases e <;> simp [writesOf, ih]

theorem writesOf_issueEvs : ∀ (batch : List (List Char)) (i0 : Nat),
    writesOf (issueEvs i0 batch) = [] := by
  intro batch
  induction batch with
  | nil => intro i0; rfl
  | cons u us ih => intro i0; rw [issueEvs, writesOf, ih]

theorem writesOf_writeList (l : List (Nat × List Nat)) :
    writesOf (l.map fun p => Ev.write p.1 p.2) = l := by
  induction l with
  | nil => rfl
  | cons p ps ih => rw [List.map_cons, writesOf, ih]

theorem fetchBatch_ok (tr : List Char → Response) :
    ∀ (batch : List (List Char)) (i0 : Nat), (∀ u ∈ batch, respOk (tr u) = true) →
    fetchBatch tr i0 batch =
      Except.ok (idxFrom i0 (batch.map fun u => (tr u).body)) := by
  intro batch
  induction batch with
  | nil => intro i0 _; rfl
  | cons u us ih =>
    intro i0 h
    have hu : respOk (tr u) = true := h u (List.mem_cons_self _ _)
    rw [fetchBatch, downloadSegment, hu]
    simp only [if_true]
    rw [ih (i0 + 1) fun v hv => h v (List.mem_cons_of_mem _ hv)]
    rfl

theorem fetchBatch_err (tr : List Char → Response) :
    ∀ (batch : List (List Char)) (i0 k : Nat) (u : List Char),
    batch.get? k = some u → respOk (tr u) = false →
    (∀ v ∈ batch.take k, respOk (tr v) = true) →
    fetchBatch tr i0 batch =
      Except.error (DlErr.segmentFetch u (tr u).status) := by
  intro batch
  induction batch with
  | nil =>
    intro i0 k u hget _ _
    exact absurd hget (by simp)
  | cons v vs ih =>
    intro i0 k u hget hbad hpre
    match k with
    | 0 =>
      rw [List.get?_cons_zero] at hget
      injection hget with h1
      subst h1
      rw [fetchBatch, downloadSegment, hbad]
      simp
    | k + 1 =>
      rw [List.get?_cons_succ] at hget
      have hv : respOk (tr v) = true := by
        apply hpre v
        rw [List.take_succ_cons]
        exact List.mem_cons_self _ _
      rw [fetchBatch, downloadSegment, hv]
      simp only [if_true]
      rw [ih (i0 + 1) k u hget hbad fun w hw => hpre w (by
        rw [List.take_succ_cons]
        exact List.mem_cons_of_mem _ hw)]

/-! ### Helper lemmas: the batch loop -/

theorem batchesAux_nil (conc fuel : Nat) : batchesAux conc fuel [] = [] := by
  cases fuel <;> rfl

theorem batchTrace_nil (tr : List Char → Response) (i0 : Nat) :
    batchTrace tr i0 [] = [] := rfl

theorem dlLoop_ok (tr : List Char → Response)
    (sched : List (Nat × List Nat) → List (Nat × List Nat))
    (hsched : ∀ l, List.Perm (sched l) l) (conc : Nat) (hc : 1 ≤ conc) :
    ∀ (fuel : Nat) (segs : List (List Char)) (i0 : Nat), segs.length ≤ fuel →
    (∀ u ∈ segs, respOk (tr u) = true) →
    dlLoop tr sched conc fuel i0 segs =
      some (batchTrace tr i0 (batchesAux conc fuel segs), Except.ok ()) := by
  intro fuel
  induction fuel with
  | zero =>
    intro segs i0 hlen _
    have hnil : segs = [] := List.length_eq_zero.mp (Nat.le_zero.mp hlen)
    subst hnil
    rfl
  | succ fuel ih =>
    intro segs i0 hlen hok
    match segs with
    | [] => rfl
    | u :: us =>
      have hbatchok : ∀ v ∈ (u :: us).take conc, respOk (tr v) = true :=
        fun v hv => hok v (List.take_subset _ _ hv)
      have hdroplen : ((u :: us).drop conc).length ≤ fuel := by
        rw [List.length_drop]
        have := List.length_cons u us ▸ hlen
        omega
      have hdropok : ∀ v ∈ (u :: us).drop conc, respOk (tr v) = true :=
        fun v hv => hok v (List.drop_subset _ _ hv)
      rw [dlLoop]
      simp only [List.isEmpty_cons, Bool.false_eq_true, if_false]
      rw [fetchBatch_ok tr _ i0 hbatchok]
      rw [ih ((u :: us).drop conc) (i0 + conc) hdroplen hdropok]
      show some (issueEvs i0 ((u :: us).take conc) ++
          List.map (fun p => Ev.write p.1 p.2)
            (sortByIndex (sched (idxFrom i0
              (List.map (fun v => (tr v).body) ((u :: us).take conc))))) ++
          batchTrace tr (i0 + conc) (batchesAux conc fuel ((u :: us).drop conc)),
          Except.ok ()) = _
      rw [sortByIndex_eq_of_perm_sorted _ _ (hsched _) (idxFrom_pairwise _ i0)]
      have hbt : batchesAux conc (fuel + 1) (u :: us) =
          (u :: us).take conc :: batchesAux conc fuel ((u :: us).drop conc) := rfl
      rw [hbt, batchTrace]
      by_cases hcl : (u :: us).length ≤ conc
      · have hdnil : (u :: us).drop conc = [] := List.drop_eq_nil_of_le hcl
        rw [hdnil, batchesAux_nil, batchTrace_nil, batchTrace_nil]
      · have hlen2 : ((u :: us).take conc).length = conc := by
          rw [List.length_take]
          omega
        rw [hlen2]

theorem mem_take_mono {α : Type} (l : List α) (m n : Nat) (h : m ≤ n) (v : α)
    (hv : v ∈ l.take m) : v ∈ l.take n := by
  have h1 : l.take m = (l.take n).take m := by
    rw [List.take_take, Nat.min_eq_left h]
  rw [h1] at hv
  exact List.take_subset _ _ hv

theorem dlLoop_err (tr : List Char → Response)
    (sched : List (Nat × List Nat) → List (Nat × List Nat))
    (hsched : ∀ l, List.Perm (sched l) l) (conc : Nat) (hc : 1 ≤ conc) :
    ∀ (fuel : Nat) (segs : List (List Char)) (i0 f : Nat) (ufail : List Char),
    segs.length ≤ fuel → segs.get? f = some ufail → respOk (tr ufail) = false →
    (∀ v ∈ segs.take f, respOk (tr v) = true) →
    ∃ nb evs, dlLoop tr sched conc fuel i0 segs =
        some (evs, Except.error (DlErr.segmentFetch ufail (tr ufail).status)) ∧
      writesOf evs = idxFrom i0 ((segs.take (conc * nb)).map fun u => (tr u).body) ∧
      conc * nb ≤ f ∧ f < conc * nb + conc := by
  intro fuel
  induction fuel with
  | zero =>
    intro segs i0 f ufail hlen hget _ _
    have hnil : segs = [] := List.length_eq_zero.mp (Nat.le_zero.mp hlen)
    subst hnil
    simp at hget
  | succ fuel ih =>
    intro segs i0 f ufail hlen hget hbad hpre
    match segs with
    | [] => simp at hget
    | u :: us =>
      have hflen : f < (u :: us).length := by
        have := List.get?_eq_some.mp hget
        exact this.1
      by_cases hfc : f < conc
      · have hgetb : ((u :: us).take conc).get? f = some ufail := by
          rw [List.get?_take hfc]
          exact hget
        have hpreb : ∀ v ∈ ((u :: us).take conc).take f, respOk (tr v) = true := by
          intro v hv
          apply hpre v
          rw [List.take_take, Nat.min_eq_left (Nat.le_of_lt hfc)] at hv
          exact hv
        refine ⟨0, issueEvs i0 ((u :: us).take conc), ?_, ?_, ?_, ?_⟩
        · rw [dlLoop]
          simp only [List.isEmpty_cons, Bool.false_eq_true, if_false]
          rw [fetchBatch_err tr _ i0 f ufail hgetb hbad hpreb]
        · rw [writesOf_issueEvs, Nat.mul_zero, List.take_zero, List.map_nil]
          rfl
        · omega
        · omega
      · have hcf : conc ≤ f := Nat.le_of_not_lt hfc
        have hbatchok : ∀ v ∈ (u :: us).take conc, respOk (tr v) = true :=
          fun v hv => hpre v (mem_take_mono _ conc f hcf v hv)
        have hdroplen : ((u :: us).drop conc).length ≤ fuel := by
          rw [List.length_drop]
          have := List.length_cons u us ▸ hlen
          omega
        have hget' : ((u :: us).drop conc).get? (f - conc) = some ufail := by
          rw [List.get?_drop]
          have h2 : conc + (f - conc) = f := by omega
          rw [h2]
          exact hget
        have hpre' : ∀ v ∈ ((u :: us).drop conc).take (f - conc),
            respOk (tr v) = true := by
          intro v hv
          apply hpre v
          have h3 : (u :: us).take f = (u :: us).take conc ++
              ((u :: us).drop conc).take (f - conc) := by
            have h4 : f = conc + (f - conc) := by omega
            rw [h4, List.take_add]
            rw [← h4]
          rw [h3]
          exact List.mem_append.mpr (Or.inr hv)
        obtain ⟨nb, evs, heq, hw, hlb, hub⟩ :=
          ih ((u :: us).drop conc) (i0 + conc) (f - conc) ufail hdroplen hget' hbad hpre'
        refine ⟨nb + 1,
          issueEvs i0 ((u :: us).take conc) ++
            (idxFrom i0 (((u :: us).take conc).map fun v => (tr v).body)).map
              (fun p => Ev.write p.1 p.2) ++ evs, ?_, ?_, ?_, ?_⟩
        · rw [dlLoop]
          simp only [List.isEmpty_cons, Bool.false_eq_true, if_false]
          rw [fetchBatch_ok tr _ i0 hbatchok, heq]
          show some (issueEvs i0 ((u :: us).take conc) ++
              List.map (fun p => Ev.write p.1 p.2)
                (sortByIndex (sched (idxFrom i0
                  (List.map (fun v => (tr v).body) ((u :: us).take conc))))) ++
              evs,
              Except.error (DlErr.segmentFetch ufail (tr ufail).status)) = _
          rw [sortByIndex_eq_of_perm_sorted _ _ (hsched _) (idxFrom_pairwise _ i0)]
        · rw [writesOf_append, writesOf_append, writesOf_issueEvs, List.nil_append,
            writesOf_writeList, hw]
          have h5 : conc * (nb + 1) = conc + conc * nb := by ring
          rw [h5, List.take_add, List.map_append, idxFrom_append]
          have h6 : (((u :: us).take conc).map fun v => (tr v).body).length = conc := by
            rw [List.length_map, List.length_take]
            have := List.length_cons u us ▸ hflen
            omega
          rw [h6]
        · have h7 : conc * (nb + 1) = conc * nb + conc := by ring
          rw [h7]
          omega
        · have h7 : conc * (nb + 1) = conc * nb + conc := by ring
          rw [h7]
          omega

theorem pred_add_div (c n : Nat) (hc : 1 ≤ c) (hn : 1 ≤ n) :
    (n + c - 1) / c = (n - 1) / c + 1 := by
  have h1 : n + c - 1 = (n - 1) + c := by omega
  rw [h1, Nat.add_div_right _ (by omega)]

theorem ceil_div_step (c n : Nat) (hc : 1 ≤ c) (hn : 1 ≤ n) :
    (n + c - 1) / c = (n - c + c - 1) / c + 1 := by
  by_cases h : n ≤ c
  · have h2 : n - c = 0 := by omega
    rw [h2, pred_add_div c n hc hn]
    have h3 : (n - 1) / c = 0 := Nat.div_eq_of_lt (by omega)
    have h4 : (0 + c - 1) / c = 0 := Nat.div_eq_of_lt (by omega)
    rw [h3, h4]
  · have h2 : n - c + c - 1 = n - 1 := by omega
    rw [pred_add_div c n hc hn, h2]

theorem dlLoop_conc_zero (tr : List Char → Response)
    (sched : List (Nat × List Nat) → List (Nat × List Nat)) :
    ∀ (fuel : Nat) (segs : List (List Char)) (i0 : Nat), segs ≠ [] →
    dlLoop tr sched 0 fuel i0 segs = none := by
  intro fuel
  induction fuel with
  | zero =>
    intro segs i0 hne
    match segs, hne with
    | u :: us, _ => rfl
  | succ fuel ih =>
    intro segs i0 hne
    match segs, hne with
    | u :: us, _ =>
      rw [dlLoop]
      simp only [List.isEmpty_cons, Bool.false_eq_true, if_false]
      rw [show fetchBatch tr i0 (List.take 0 (u :: us)) = Except.ok [] from rfl]
      show (match dlLoop tr sched 0 fuel (i0 + 0) (List.drop 0 (u :: us)) with
        | none => none
        | some (evs, out) =>
          some (issueEvs i0 (List.take 0 (u :: us)) ++
            List.map (fun p => Ev.write p.1 p.2) (sortByIndex (sched [])) ++ evs,
            out)) = none
      rw [List.drop_zero, ih (u :: us) (i0 + 0) (by simp)]

theorem dlLoop_isSome_iff (tr : List Char → Response)
    (sched : List (Nat × List Nat) → List (Nat × List Nat)) (conc : Nat)
    (hc : 1 ≤ conc) :
    ∀ (fuel : Nat) (segs : List (List Char)) (i0 : Nat),
    (∀ u ∈ segs, respOk (tr u) = true) →
    ((dlLoop tr sched conc fuel i0 segs).isSome = true ↔
      (segs.length + conc - 1) / conc ≤ fuel) := by
  intro fuel
  induction fuel with
  | zero =>
    intro segs i0 hok
    match segs with
    | [] =>
      constructor
      · intro _
        have h1 : (List.length ([] : List (List Char)) + conc - 1) / conc = 0 :=
          Nat.div_eq_of_lt (by simp; omega)
        omega
      · intro _
        rfl
    | u :: us =>
      have h1 : dlLoop tr sched conc 0 i0 (u :: us) = none := rfl
      rw [h1]
      simp only [Option.isSome_none, Bool.false_eq_true, false_iff]
      intro hle
      have h2 : 1 ≤ ((u :: us).length + conc - 1) / conc := by
        rw [Nat.one_le_div_iff (by omega)]
        have h3 := List.length_cons u us
        omega
      omega
  | succ fuel ih =>
    intro segs i0 hok
    match segs with
    | [] =>
      constructor
      · intro _
        have h1 : (List.length ([] : List (List Char)) + conc - 1) / conc = 0 :=
          Nat.div_eq_of_lt (by simp; omega)
        omega
      · intro _
        rfl
    | u :: us =>
      have hbatchok : ∀ v ∈ (u :: us).take conc, respOk (tr v) = true :=
        fun v hv => hok v (List.take_subset _ _ hv)
      have hdropok : ∀ v ∈ (u :: us).drop conc, respOk (tr v) = true :=
        fun v hv => hok v (List.drop_subset _ _ hv)
      have hn1 : 1 ≤ (u :: us).length := by
        rw [List.length_cons]
        omega
      have hstep := ceil_div_step conc (u :: us).length hc hn1
      have ihD := ih ((u :: us).drop conc) (i0 + conc) hdropok
      rw [List.length_drop] at ihD
      rw [dlLoop]
      simp only [List.isEmpty_cons, Bool.false_eq_true, if_false]
      rw [fetchBatch_ok tr _ i0 hbatchok]
      cases hdl : dlLoop tr sched conc fuel (i0 + conc) (List.drop conc (u :: us)) with
      | none =>
        rw [hdl] at ihD
        simp only [Option.isSome_none, Bool.false_eq_true, false_iff] at ihD
        show (none : Option (List Ev × Except DlErr Unit)).isSome = true ↔ _
        simp only [Option.isSome_none, Bool.false_eq_true, false_iff]
        intro hle
        apply ihD
        rw [hstep] at hle
        exact Nat.le_of_succ_le_succ hle
      | some p =>
        rw [hdl] at ihD
        simp only [Option.isSome_some, true_iff] at ihD
        obtain ⟨evs, out⟩ := p
        show (some (issueEvs i0 (List.take conc (u :: us)) ++
          List.map (fun q => Ev.write q.1 q.2)
            (sortByIndex (sched (idxFrom i0
              (List.map (fun v => (tr v).body) (List.take conc (u :: us)))))) ++ evs,
          out)).isSome = true ↔ _
        simp only [Option.isSome_some, true_iff]
        rw [hstep]
        exact Nat.succ_le_succ ihD

theorem batchesAux_join (conc : Nat) (hc : 1 ≤ conc) :
    ∀ (fuel : Nat) (segs : List (List Char)), segs.length ≤ fuel →
    (batchesAux conc fuel segs).flatten = segs := by
  intro fuel
  induction fuel with
  | zero =>
    intro segs h
    have hnil : segs = [] := List.length_eq_zero.mp (Nat.le_zero.mp h)
    subst hnil
    rfl
  | succ fuel ih =>
    intro segs h
    match segs with
    | [] => rfl
    | u :: us =>
      have hdroplen : ((u :: us).drop conc).length ≤ fuel := by
        rw [List.length_drop]
        have := List.length_cons u us ▸ h
        omega
      show ((u :: us).take conc :: batchesAux conc fuel ((u :: us).drop conc)).flatten
        = u :: us
      rw [List.flatten_cons, ih _ hdroplen, List.take_append_drop]

theorem batchesOf_join (conc : Nat) (hc : 1 ≤ conc) (segs : List (List Char)) :
    (batchesOf conc segs).flatten = segs :=
  batchesAux_join conc hc segs.length segs (Nat.le_refl _)

theorem batchesAux_length (conc : Nat) (hc : 1 ≤ conc) :
    ∀ (fuel : Nat) (segs : List (List Char)), segs.length ≤ fuel →
    (batchesAux conc fuel segs).length = (segs.length + conc - 1) / conc := by
  intro fuel
  induction fuel with
  | zero =>
    intro segs h
    have hnil : segs = [] := List.length_eq_zero.mp (Nat.le_zero.mp h)
    subst hnil
    have h1 : (List.length ([] : List (List Char)) + conc - 1) / conc = 0 :=
      Nat.div_eq_of_lt (by simp; omega)
    rw [h1]
    rfl
  | succ fuel ih =>
    intro segs h
    match segs with
    | [] =>
      have h1 : (List.length ([] : List (List Char)) + conc - 1) / conc = 0 :=
        Nat.div_eq_of_lt (by simp; omega)
      rw [h1]
      rfl
    | u :: us =>
      have hdroplen : ((u :: us).drop conc).length ≤ fuel := by
        rw [List.length_drop]
        have := List.length_cons u us ▸ h
        omega
      have hn1 : 1 ≤ (u :: us).length := by
        rw [List.length_cons]
        omega
      show ((u :: us).take conc :: batchesAux conc fuel ((u :: us).drop conc)).length
        = ((u :: us).length + conc - 1) / conc
      rw [List.length_cons, ih _ hdroplen, List.length_drop,
        ceil_div_step conc (u :: us).length hc hn1]

theorem batchesAux_mem_size (conc : Nat) :
    ∀ (fuel : Nat) (segs : List (List Char)) (b : List (List Char)),
    b ∈ batchesAux conc fuel segs → b.length ≤ conc := by
  intro fuel
  induction fuel with
  | zero =>
    intro segs b hb
    exact absurd hb (by simp [batchesAux])
  | succ fuel ih =>
    intro segs b hb
    match segs with
    | [] => exact absurd hb (by simp [batchesAux])
    | u :: us =>
      have hb' : b ∈ (u :: us).take conc :: batchesAux conc fuel ((u :: us).drop conc) := hb
      rcases List.mem_cons.mp hb' with rfl | hb'
      · rw [List.length_take]
        exact Nat.min_le_left _ _
      · exact ih _ b hb'

theorem batchesAux_full (conc : Nat) (hc : 1 ≤ conc) :
    ∀ (fuel : Nat) (segs : List (List Char)) (k : Nat) (b : List (List Char)),
    (batchesAux conc fuel segs).get? k = some b →
    k + 1 < (batchesAux conc fuel segs).length → b.length = conc := by
  intro fuel
  induction fuel with
  | zero =>
    intro segs k b hget _
    exact absurd hget (by simp [batchesAux])
  | succ fuel ih =>
    intro segs k b hget hlt
    match segs with
    | [] => exact absurd hget (by simp [batchesAux])
    | u :: us =>
      have he : batchesAux conc (fuel + 1) (u :: us) =
          (u :: us).take conc :: batchesAux conc fuel ((u :: us).drop conc) := rfl
      rw [he] at hget hlt
      rw [List.length_cons] at hlt
      match k with
      | 0 =>
        rw [List.get?_cons_zero] at hget
        injection hget with h1
        subst h1
        have hrest : batchesAux conc fuel ((u :: us).drop conc) ≠ [] := by
          intro hn
          rw [hn] at hlt
          simp at hlt
        have hdne : (u :: us).drop conc ≠ [] := by
          intro hn
          rw [hn, batchesAux_nil] at hrest
          exact hrest rfl
        have hlen : conc < (u :: us).length := by
          by_contra hle
          exact hdne (List.drop_eq_nil_of_le (Nat.le_of_not_lt hle))
        rw [List.length_take]
        omega
      | k + 1 =>
        rw [List.get?_cons_succ] at hget
        exact ih _ k b hget (by omega)

theorem writesOf_batchTrace (tr : List Char → Response) :
    ∀ (bs : List (List (List Char))) (i0 : Nat),
    writesOf (batchTrace tr i0 bs) =
      idxFrom i0 (bs.flatten.map fun u => (tr u).body) := by
  intro bs
  induction bs with
  | nil => intro i0; rfl
  | cons b bs ih =>
    intro i0
    rw [batchTrace, writesOf_append, writesOf_append, writesOf_issueEvs,
      List.nil_append, writesOf_writeList, List.flatten_cons, List.map_append,
      idxFrom_append, ih, List.length_map]

/-! ### Claim theorems -/

/-- C1: for every media playlist with `M` non-comment, non-blank segment
lines and every fetch completion order within a batch (modelled by an
arbitrary per-batch permutation `sched` of the results), with positive
concurrency and an all-successful transport, `processMediaPlaylist` succeeds,
closes the file, and writes exactly `M` segments: the write events carry
indices `0 .. M-1` in ascending order with no gaps and no duplicates, and the
concatenation of the written bytes equals the concatenation of the segments'
payloads in index order. -/
theorem claim1_ordered_writes (tr : List Char → Response)
    (sched : List (Nat × List Nat) → List (Nat × List Nat))
    (pl base : List Char) (conc : Nat)
    (hc : 1 ≤ conc) (hsched : ∀ l, List.Perm (sched l) l)
    (hok : ∀ u ∈ extractSegments pl base, respOk (tr u) = true) :
    ∃ evs,
      processMediaPlaylist tr sched pl base conc = some (evs, Except.ok (), true) ∧
      writesOf evs =
        idxFrom 0 ((extractSegments pl base).map fun u => (tr u).body) ∧
      (writesOf evs).length = (extractSegments pl base).length ∧
      (writesOf evs).map Prod.fst = List.range' 0 (extractSegments pl base).length ∧
      ((writesOf evs).map Prod.snd).flatten =
        ((extractSegments pl base).map fun u => (tr u).body).flatten := by
  have hw : writesOf (batchTrace tr 0 (batchesOf conc (extractSegments pl base))) =
      idxFrom 0 ((extractSegments pl base).map fun u => (tr u).body) := by
    rw [writesOf_batchTrace, batchesOf_join conc hc]
  refine ⟨batchTrace tr 0 (batchesOf conc (extractSegments pl base)),
    ?_, hw, ?_, ?_, ?_⟩
  · simp only [processMediaPlaylist]
    rw [dlLoop_ok tr sched hsched conc hc (extractSegments pl base).length
      (extractSegments pl base) 0 (Nat.le_refl _) hok]
    rfl
  · rw [hw, idxFrom_length, List.length_map]
  · rw [hw, idxFrom_map_fst, List.length_map]
  · rw [hw, idxFrom_map_snd]

/-- Witness for C1 on a concrete playlist with three segments, concurrency 2
and a completion order that reverses every batch. -/
theorem claim1_ordered_writes_witness :
    ∃ evs,
      processMediaPlaylist (fun _ => Response.mk 200 [7])
        (fun l => l.reverse) (str "#EXTM3U\ns1.ts\ns2.ts\ns3.ts")
        (str "http://h/d/p.m3u8") 2 = some (evs, Except.ok (), true) ∧
      writesOf evs =
        idxFrom 0 ((extractSegments (str "#EXTM3U\ns1.ts\ns2.ts\ns3.ts")
          (str "http://h/d/p.m3u8")).map
            fun u => ((fun _ => Response.mk 200 [7]) u).body) ∧
      (writesOf evs).length = (extractSegments (str "#EXTM3U\ns1.ts\ns2.ts\ns3.ts")
        (str "http://h/d/p.m3u8")).length ∧
      (writesOf evs).map Prod.fst =
        List.range' 0 (extractSegments (str "#EXTM3U\ns1.ts\ns2.ts\ns3.ts")
          (str "http://h/d/p.m3u8")).length ∧
      ((writesOf evs).map Prod.snd).flatten =
        ((extractSegments (str "#EXTM3U\ns1.ts\ns2.ts\ns3.ts")
          (str "http://h/d/p.m3u8")).map
            fun u => ((fun _ => Response.mk 200 [7]) u).body).flatten :=
  claim1_ordered_writes (fun _ => Response.mk 200 [7]) (fun l => l.reverse)
    (str "#EXTM3U\ns1.ts\ns2.ts\ns3.ts") (str "http://h/d/p.m3u8") 2
    (by decide) (fun l => List.reverse_perm l) (fun u _ => rfl)

/-- C6: if the first failing segment fetch (a non-2xx response) sits at index
`f`, the run fails with the error thrown by `downloadSegment` — carrying the
failing URL and its HTTP status (the spec's `SegmentFetchError`) — the file is
still closed, every write event comes from a batch before the failing one
(all written indices are below the failing batch's start `conc * nb`), and no
segment of the failing batch is written. -/
theorem claim6_segment_failure (tr : List Char → Response)
    (sched : List (Nat × List Nat) → List (Nat × List Nat))
    (pl base : List Char) (conc f : Nat) (ufail : List Char)
    (hc : 1 ≤ conc) (hsched : ∀ l, List.Perm (sched l) l)
    (hget : (extractSegments pl base).get? f = some ufail)
    (hbad : respOk (tr ufail) = false)
    (hpre : ∀ v ∈ (extractSegments pl base).take f, respOk (tr v) = true) :
    ∃ nb evs,
      processMediaPlaylist tr sched pl base conc =
        some (evs, Except.error (DlErr.segmentFetch ufail (tr ufail).status), true) ∧
      writesOf evs =
        idxFrom 0 (((extractSegments pl base).take (conc * nb)).map
          fun u => (tr u).body) ∧
      conc * nb ≤ f ∧ f < conc * nb + conc ∧
      (∀ p ∈ writesOf evs, p.1 < conc * nb) := by
  obtain ⟨nb, evs, heq, hw, hlb, hub⟩ := dlLoop_err tr sched hsched conc hc
    (extractSegments pl base).length (extractSegments pl base) 0 f ufail
    (Nat.le_refl _) hget hbad hpre
  refine ⟨nb, evs, ?_, hw, hlb, hub, ?_⟩
  · simp only [processMediaPlaylist]
    rw [heq]
  · intro p hp
    rw [hw] at hp
    have h1 := idxFrom_mem_lt p _ 0 hp
    have h2 : (((extractSegments pl base).take (conc * nb)).map
        fun u => (tr u).body).length ≤ conc * nb := by
      rw [List.length_map, List.length_take]
      exact Nat.min_le_left _ _
    omega

/-- Witness for C6: three segments, concurrency 2, the third fetch returns
404; the first batch is written, the run errors with the failing URL and
status, and no write reaches the failing batch. -/
theorem claim6_segment_failure_witness :
    ∃ nb evs,
      processMediaPlaylist
        (fun u => if u == resolveUrl (str "s3.ts") (str "http://h/d/p.m3u8")
          then Response.mk 404 [] else Response.mk 200 [7])
        id (str "#EXTM3U\ns1.ts\ns2.ts\ns3.ts") (str "http://h/d/p.m3u8") 2 =
        some (evs, Except.error (DlErr.segmentFetch
          (resolveUrl (str "s3.ts") (str "http://h/d/p.m3u8"))
          ((fun u => if u == resolveUrl (str "s3.ts") (str "http://h/d/p.m3u8")
            then Response.mk 404 [] else Response.mk 200 [7])
            (resolveUrl (str "s3.ts") (str "http://h/d/p.m3u8"))).status), true) ∧
      writesOf evs =
        idxFrom 0 (((extractSegments (str "#EXTM3U\ns1.ts\ns2.ts\ns3.ts")
          (str "http://h/d/p.m3u8")).take (2 * nb)).map
            fun u => ((fun u => if u == resolveUrl (str "s3.ts")
              (str "http://h/d/p.m3u8") then Response.mk 404 []
              else Response.mk 200 [7]) u).body) ∧
      2 * nb ≤ 2 ∧ (2 : Nat) < 2 * nb + 2 ∧
      (∀ p ∈ writesOf evs, p.1 < 2 * nb) :=
  claim6_segment_failure
    (fun u => if u == resolveUrl (str "s3.ts") (str "http://h/d/p.m3u8")
      then Response.mk 404 [] else Response.mk 200 [7])
    id (str "#EXTM3U\ns1.ts\ns2.ts\ns3.ts") (str "http://h/d/p.m3u8") 2 2
    (resolveUrl (str "s3.ts") (str "http://h/d/p.m3u8"))
    (by decide) (fun l => List.Perm.refl l) (by decide) (by decide) (by decide)

/-- C8: with positive concurrency `C` the loop walks `⌈M/C⌉` consecutive
batches whose concatenation is the segment list, each of size at most `C`,
every non-final batch of size exactly `C`; five segments at `C = 2` give
batch sizes `[2, 2, 1]`; and on a successful run the trace is the
concatenation of per-batch blocks, each block issuing all of its fetches and
then writing all of its results, so no fetch of batch `k+1` is issued before
all writes of batch `k`. -/
theorem claim8_batch_partition :
    (∀ (conc : Nat) (segs : List (List Char)), 1 ≤ conc →
      (batchesOf conc segs).length = (segs.length + conc - 1) / conc ∧
      (batchesOf conc segs).flatten = segs ∧
      (∀ b ∈ batchesOf conc segs, b.length ≤ conc) ∧
      (∀ k b, (batchesOf conc segs).get? k = some b →
        k + 1 < (batchesOf conc segs).length → b.length = conc)) ∧
    (∀ u1 u2 u3 u4 u5 : List Char,
      (batchesOf 2 [u1, u2, u3, u4, u5]).map List.length = [2, 2, 1]) ∧
    (∀ (tr : List Char → Response)
      (sched : List (Nat × List Nat) → List (Nat × List Nat))
      (conc : Nat) (segs : List (List Char)) (i0 : Nat),
      1 ≤ conc → (∀ l, List.Perm (sched l) l) →
      (∀ u ∈ segs, respOk (tr u) = true) →
      dlLoop tr sched conc segs.length i0 segs =
        some (batchTrace tr i0 (batchesOf conc segs), Except.ok ())) := by
  refine ⟨?_, ?_, ?_⟩
  · intro conc segs hc
    exact ⟨batchesAux_length conc hc segs.length segs (Nat.le_refl _),
      batchesOf_join conc hc segs,
      fun b hb => batchesAux_mem_size conc segs.length segs b hb,
      fun k b hget hlt => batchesAux_full conc hc segs.length segs k b hget hlt⟩
  · intro u1 u2 u3 u4 u5
    rfl
  · intro tr sched conc segs i0 hc hsched hok
    exact dlLoop_ok tr sched hsched conc hc segs.length segs i0 (Nat.le_refl _) hok

/-- Witness for C8 at five concrete URLs and `C = 2`. -/
theorem claim8_batch_partition_witness :
    (batchesOf 2 [str "a", str "b", str "c", str "d", str "e"]).length =
      (([str "a", str "b", str "c", str "d", str "e"].length + 2 - 1) / 2 : Nat) ∧
    (batchesOf 2 [str "a", str "b", str "c", str "d", str "e"]).map List.length =
      [2, 2, 1] :=
  ⟨(claim8_batch_partition.1 2 [str "a", str "b", str "c", str "d", str "e"]
      (by decide)).1,
    claim8_batch_partition.2.1 (str "a") (str "b") (str "c") (str "d") (str "e")⟩

/-- C10: the batch loop advances its index by the concurrency each iteration:
for `C ≥ 1` and an all-successful transport it finishes within `fuel`
iterations exactly when `fuel ≥ ⌈M/C⌉` (so it terminates after exactly
`⌈M/C⌉` iterations), and with `C = 0` and a nonempty segment list it never
finishes, whatever the fuel. -/
theorem claim10_loop_iterations :
    (∀ (tr : List Char → Response)
      (sched : List (Nat × List Nat) → List (Nat × List Nat))
      (conc : Nat) (segs : List (List Char)) (i0 : Nat),
      1 ≤ conc → (∀ u ∈ segs, respOk (tr u) = true) →
      ∀ fuel, ((dlLoop tr sched conc fuel i0 segs).isSome = true ↔
        (segs.length + conc - 1) / conc ≤ fuel)) ∧
    (∀ (tr : List Char → Response)
      (sched : List (Nat × List Nat) → List (Nat × List Nat))
      (fuel : Nat) (segs : List (List Char)) (i0 : Nat), segs ≠ [] →
      dlLoop tr sched 0 fuel i0 segs = none) := by
  constructor
  · intro tr sched conc segs i0 hc hok fuel
    exact dlLoop_isSome_iff tr sched conc hc fuel segs i0 hok
  · intro tr sched fuel segs i0 hne
    exact dlLoop_conc_zero tr sched fuel segs i0 hne

/-- Witness for C10: five segments at `C = 2` finish with fuel 3 = ⌈5/2⌉ but
not with fuel 2, and at `C = 0` one segment never finishes even with fuel 9. -/
theorem claim10_loop_iterations_witness :
    ((dlLoop (fun _ => Response.mk 200 []) id 2 3 0
        [str "a", str "b", str "c", str "d", str "e"]).isSome = true) ∧
    ¬ ((dlLoop (fun _ => Response.mk 200 []) id 2 2 0
        [str "a", str "b", str "c", str "d", str "e"]).isSome = true) ∧
    dlLoop (fun _ => Response.mk 200 []) id 0 9 0 [str "a"] = none :=
  ⟨(claim10_loop_iterations.1 (fun _ => Response.mk 200 []) id 2
      [str "a", str "b", str "c", str "d", str "e"] 0 (by decide)
      (fun u _ => rfl) 3).mpr (by decide),
    fun h => by
      have := (claim10_loop_iterations.1 (fun _ => Response.mk 200 []) id 2
        [str "a", str "b", str "c", str "d", str "e"] 0 (by decide)
        (fun u _ => rfl) 2).mp h
      exact absurd this (by decide),
    claim10_loop_iterations.2 (fun _ => Response.mk 200 []) id 9 [str "a"] 0
      (by decide)⟩

theorem renderVariants_mem (vs : List (Nat × List Char)) (l : List Char)
    (hl : l ∈ renderVariants vs) :
    (∃ p ∈ vs, l = streamInfTagLine p.1) ∨ ∃ p ∈ vs, l = p.2 := by
  induction vs with
  | nil => exact absurd hl (by simp [renderVariants])
  | cons v vs ih =>
    obtain ⟨b0, u0⟩ := v
    rw [renderVariants] at hl
    rcases List.mem_cons.mp hl with he | hl
    · exact Or.inl ⟨(b0, u0), List.mem_cons_self _ _, he⟩
    · rcases List.mem_cons.mp hl with he | hl
      · exact Or.inr ⟨(b0, u0), List.mem_cons_self _ _, he⟩
      · rcases ih hl with ⟨p, hp, he⟩ | ⟨p, hp, he⟩
        · exact Or.inl ⟨p, List.mem_cons_of_mem _ hp, he⟩
        · exact Or.inr ⟨p, List.mem_cons_of_mem _ hp, he⟩

/-- C2 counterexample: a master playlist whose only variant carries
`BANDWIDTH=0` — its strictly greatest bandwidth — selects nothing and returns
the empty string instead of that variant's resolved URL, because replacement
requires the bandwidth to strictly exceed the running maximum, which starts
at 0. -/
theorem claim2_counterexample :
    extractHighestQualityStream (str "#EXT-X-STREAM-INF:BANDWIDTH=0\nu.m3u8")
      (str "http://h/a.m3u8") = Except.ok [] ∧
    resolveUrl (str "u.m3u8") (str "http://h/a.m3u8") ≠ [] := by decide

/-- C2 (amended): provided the maximum bandwidth is positive, selection over
a well-formed rendered master playlist returns the resolved URI of the
variant with the strictly greatest parsed BANDWIDTH, independent of document
order, and ties keep the first variant in document order (replacement happens
only on strictly greater bandwidth); a playlist whose maximum bandwidth is 0
instead yields the empty selection. -/
theorem claim2_highest_bandwidth (vs : List (Nat × List Char))
    (base : List Char) (k b : Nat) (u : List Char)
    (hget : vs.get? k = some (b, u))
    (hmax : ∀ p ∈ vs, p.1 ≤ b)
    (hfirst : ∀ p ∈ vs.take k, p.1 < b)
    (hpos : 0 < b)
    (hu : ∀ p ∈ vs, hasSub streamInfMarker p.2 = false ∧ ∀ c ∈ p.2, c ≠ '\n') :
    extractHighestQualityStream (joinCh '\n' (renderVariants vs)) base =
      Except.ok (resolveUrl u base) := by
  have hvs : vs ≠ [] := by
    intro hn
    subst hn
    simp at hget
  have hre : renderVariants vs ≠ [] := by
    match vs, hvs with
    | (b0, u0) :: vs', _ => simp [renderVariants]
  have hnl : ∀ l ∈ renderVariants vs, ∀ c ∈ l, c ≠ '\n' := by
    intro l hl
    rcases renderVariants_mem vs l hl with ⟨p, _, rfl⟩ | ⟨p, hp, rfl⟩
    · exact tagLine_no_nl p.1
    · exact (hu p hp).2
  rw [extractHighestQualityStream,
    splitCh_joinCh '\n' (renderVariants vs) hre hnl,
    extractGo_render base vs 0 [] (fun p hp => (hu p hp).1),
    scanVariants_first base vs k 0 [] b u hget hpos hmax hfirst]
  rfl

/-- Witness for C2 on three variants with the maximum (300) in the middle. -/
theorem claim2_highest_bandwidth_witness :
    extractHighestQualityStream
      (joinCh '\n' (renderVariants
        [(100, str "a.m3u8"), (300, str "b.m3u8"), (200, str "c.m3u8")]))
      (str "http://h/m.m3u8") =
      Except.ok (resolveUrl (str "b.m3u8") (str "http://h/m.m3u8")) :=
  claim2_highest_bandwidth
    [(100, str "a.m3u8"), (300, str "b.m3u8"), (200, str "c.m3u8")]
    (str "http://h/m.m3u8") 1 300 (str "b.m3u8")
    (by decide) (by decide) (by decide) (by decide) (by decide)

/-- C3 counterexample: a master playlist (it contains `#EXT-X-STREAM-INF`)
whose single tag line has no parseable BANDWIDTH — so no variant produces a
bandwidth+URI pair — returns the empty string; the code never fails with the
spec's `NoVariantFoundError`. -/
theorem claim3_counterexample :
    extractHighestQualityStream (str "#EXT-X-STREAM-INF:X\nu")
      (str "http://h/a.m3u8") = Except.ok [] ∧
    (Except.ok [] : Except ExtractErr (List Char)) ≠
      Except.error ExtractErr.noVariantFound := by decide

/-- C3 (amended): for every master playlist in which no stream-info tag line
has a parseable positive BANDWIDTH attribute, variant selection returns the
empty string rather than failing; the spec's `NoVariantFoundError` has no
counterpart in the code (a tag with positive bandwidth but no following URI
line instead raises a TypeError, see the C4 theorem). -/
theorem claim3_no_variant (pl base : List Char)
    (hmaster : hasSub streamInfMarker pl = true)
    (hnone : ∀ l ∈ splitCh '\n' pl, hasSub streamInfMarker l = true →
      bandwidthMatch l = none ∨ bandwidthMatch l = some 0) :
    extractHighestQualityStream pl base = Except.ok [] := by
  rw [extractHighestQualityStream, extractGo_no_select base _ [] hnone]
  rfl

/-- Witness for C3. -/
theorem claim3_no_variant_witness :
    extractHighestQualityStream (str "#EXT-X-STREAM-INF:X\nu")
      (str "http://h/b.m3u8") = Except.ok [] :=
  claim3_no_variant (str "#EXT-X-STREAM-INF:X\nu") (str "http://h/b.m3u8")
    (by decide) (by decide)

/-- C4 counterexample: a master playlist whose final line is a stream-info
tag with a parseable BANDWIDTH and no following line fails with the TypeError
of reading a property of the undefined `lines[i+1]`, not with the spec's
`MalformedPlaylistError`, which does not exist in the code. -/
theorem claim4_counterexample :
    extractHighestQualityStream (str "#EXT-X-STREAM-INF:BANDWIDTH=100")
      (str "http://h/a.m3u8") = Except.error ExtractErr.typeError ∧
    (Except.error ExtractErr.typeError : Except ExtractErr (List Char)) ≠
      Except.error ExtractErr.malformedPlaylist := by decide

/-- C4 (amended): when the final line of the text is a stream-info tag line
with a parseable BANDWIDTH exceeding the running maximum (here: no earlier
tag line, positive bandwidth), there is no following line to act as the URI,
and selection fails — but with the TypeError raised by handing the undefined
next line to `resolveUrl`, not with a `MalformedPlaylistError`. -/
theorem claim4_tag_at_end (pl base lst : List Char) (b : Nat)
    (pre : List (List Char))
    (hsplit : splitCh '\n' pl = pre ++ [lst])
    (hpre : ∀ l ∈ pre, hasSub streamInfMarker l = false)
    (htag : hasSub streamInfMarker lst = true)
    (hbw : bandwidthMatch lst = some b) (hpos : 0 < b) :
    extractHighestQualityStream pl base = Except.error ExtractErr.typeError := by
  rw [extractHighestQualityStream, hsplit,
    extractGo_tag_last base lst b htag hbw pre 0 [] hpre hpos]
  rfl

/-- Witness for C4. -/
theorem claim4_tag_at_end_witness :
    extractHighestQualityStream (str "#EXT-X-STREAM-INF:BANDWIDTH=100")
      (str "http://h/b.m3u8") = Except.error ExtractErr.typeError :=
  claim4_tag_at_end (str "#EXT-X-STREAM-INF:BANDWIDTH=100")
    (str "http://h/b.m3u8") (str "#EXT-X-STREAM-INF:BANDWIDTH=100") 100 []
    (by decide) (by decide) (by decide) (by decide) (by decide)

/-- C5: `resolveUrl` returns scheme-absolute references unchanged; for a
root-relative reference it prepends the scheme+authority of the base
(everything up to but excluding the first `/` after the authority); otherwise
it drops everything after the base's last `/` and appends `/` and the
reference; and the three §8 test vectors hold. -/
theorem claim5_resolveUrl :
    (∀ ref base : List Char,
      strStarts httpPre ref = true ∨ strStarts httpsPre ref = true →
      resolveUrl ref base = ref) ∧
    (∀ scheme r host rest : List Char,
      scheme = httpPre ∨ scheme = httpsPre → host ≠ [] →
      (∀ c ∈ host, c ≠ '/') →
      resolveUrl ('/' :: r) (scheme ++ host ++ '/' :: rest) =
        scheme ++ host ++ '/' :: r) ∧
    (∀ ref d lastPart : List Char,
      strStarts httpPre ref = false → strStarts httpsPre ref = false →
      strStarts ['/'] ref = false → (∀ c ∈ lastPart, c ≠ '/') →
      resolveUrl ref (d ++ '/' :: lastPart) = d ++ '/' :: ref) ∧
    resolveUrl (str "seg1.ts") (str "http://h/dir/a.m3u8") =
      str "http://h/dir/seg1.ts" ∧
    resolveUrl (str "/x/seg1.ts") (str "http://h/dir/a.m3u8") =
      str "http://h/x/seg1.ts" ∧
    resolveUrl (str "http://other/s.ts") (str "http://h/dir/a.m3u8") =
      str "http://other/s.ts" :=
  ⟨fun ref base h => resolveUrl_absolute ref base h,
    fun scheme r host rest hs hne hh => resolveUrl_root r host rest scheme hs hne hh,
    fun ref d lastPart h1 h2 h3 hl => resolveUrl_relative ref d lastPart h1 h2 h3 hl,
    by decide, by decide, by decide⟩

/-- Witness for C5: a root-relative reference against an https base, and a
relative reference against a base whose directory part contains slashes. -/
theorem claim5_resolveUrl_witness :
    resolveUrl ('/' :: str "p/q.ts")
      (httpsPre ++ str "ex.com" ++ '/' :: str "a/b.m3u8") =
      httpsPre ++ str "ex.com" ++ '/' :: str "p/q.ts" ∧
    resolveUrl (str "x.ts") (str "h/dir" ++ '/' :: str "base.m3u8") =
      str "h/dir" ++ '/' :: str "x.ts" :=
  ⟨claim5_resolveUrl.2.1 httpsPre (str "p/q.ts") (str "ex.com")
      (str "a/b.m3u8") (Or.inr rfl) (by decide) (by decide),
    claim5_resolveUrl.2.2.1 (str "x.ts") (str "h/dir") (str "base.m3u8")
      (by decide) (by decide) (by decide) (by decide)⟩

/-- C7 counterexample: `downloadM3U8` declares default concurrency 5, not
10. -/
theorem claim7_counterexample : downloadM3U8DefaultConcurrency ≠ 10 := by decide

/-- C7 (amended): the `downloadM3U8` function declares a default concurrency
of 5; the CLI supplies 10 when the optional third positional argument is
omitted. -/
theorem claim7_default_concurrency :
    downloadM3U8DefaultConcurrency = 5 ∧ cliConcurrency none = some 10 := by
  decide

/-- C9: segment extraction selects every line that does not start with `#`
and is nonempty after trimming, but resolves the raw, untrimmed line: the
resolved URL keeps the raw line as a suffix, so any trailing whitespace of
the line (for example the carriage return of CRLF-terminated playlists)
appears at the end of the produced segment URL. -/
theorem claim9_raw_segment_lines (pl base line : List Char)
    (hmem : line ∈ splitCh '\n' pl)
    (hhash : strStarts ['#'] line = false)
    (htrim : (jsTrim line).isEmpty = false) :
    resolveUrl line base ∈ extractSegments pl base ∧
    (∃ pre, resolveUrl line base = pre ++ line) ∧
    ∀ c, line.getLast? = some c →
      (resolveUrl line base).getLast? = some c := by
  have hline : line ≠ [] := by
    intro hn
    subst hn
    simp [jsTrim] at htrim
  obtain ⟨pre, hpre⟩ := resolveUrl_suffix line base
  refine ⟨?_, ⟨pre, hpre⟩, ?_⟩
  · rw [extractSegments]
    apply List.mem_filterMap.mpr
    refine ⟨line, hmem, ?_⟩
    rw [hhash, htrim]
    rfl
  · intro c hc
    rw [hpre, List.getLast?_append_of_ne_nil _ hline]
    exact hc

/-- Witness for C9: a CRLF playlist line keeps its trailing carriage return
in the segment URL. -/
theorem claim9_raw_segment_lines_witness :
    resolveUrl (str "seg1.ts\r") (str "http://h/dir/a.m3u8") ∈
      extractSegments (str "#EXTM3U\nseg1.ts\r") (str "http://h/dir/a.m3u8") ∧
    (∃ pre, resolveUrl (str "seg1.ts\r") (str "http://h/dir/a.m3u8") =
      pre ++ str "seg1.ts\r") ∧
    ∀ c, (str "seg1.ts\r").getLast? = some c →
      (resolveUrl (str "seg1.ts\r") (str "http://h/dir/a.m3u8")).getLast? =
        some c :=
  claim9_raw_segment_lines (str "#EXTM3U\nseg1.ts\r")
    (str "http://h/dir/a.m3u8") (str "seg1.ts\r")
    (by decide) (by decide) (by decide)

end M3U8
